import Mathlib

/-!
# Verification of the filler-word filter

Shallow embedding of `livekit-agents/livekit/agents/voice/filler_filter.py`.

Text is modelled as Lean `String` / `List Char`.  Python string operations
(`str.lower`, `str.strip`, `str.split`) and the regular-expression operations
used by the source (`re.sub(r'[^\w\s]', '', s)` and
`re.compile(r'\b(w1|w2|...)\b', re.IGNORECASE).sub('', s)`) are embedded as
executable functions over `List Char`.  Case folding (`lowerChar`) and the
word-character class (`isWordChar`) are modelled over the alphabet that the
program actually uses (ASCII plus the letter ä from the built-in German filler
words); the ASR confidence float is modelled as a rational number.
-/

/-- Python / regex word character `\w`, over the alphabet used by the program:
ASCII alphanumerics, underscore, and the letter ä occurring in the default
vocabulary ("äh", "ähm"). -/
def isWordChar (c : Char) : Bool :=
  c.isAlphanum || c == '_' || c == 'ä'

/-- Whitespace class (`\s`, and the characters removed by `str.strip`). -/
def isWs (c : Char) : Bool :=
  c.isWhitespace

/-- ASCII case folding of a single character: the effect of Python
`str.lower` on the alphabet used by the program (A–Z map down; every other
character, including ä, is already caseless here). -/
def lowerChar (c : Char) : Char :=
  if 65 ≤ c.toNat && c.toNat ≤ 90 then Char.ofNat (c.toNat + 32) else c

/-- Python `str.lower`. -/
def lowerStr (s : String) : String :=
  ⟨s.data.map lowerChar⟩

/-- Python `str.strip` on a character list: drop whitespace from both ends. -/
def stripChars (cs : List Char) : List Char :=
  ((cs.dropWhile isWs).reverse.dropWhile isWs).reverse

/-- Python `str.strip`. -/
def stripStr (s : String) : String :=
  ⟨stripChars s.data⟩

/-- Word-character status of an optional character; `none` stands for the
edge of the string (not a word character). -/
def optW : Option Char → Bool
  | none => false
  | some c => isWordChar c

/-- The regex word-boundary predicate `\b` between two adjacent positions:
exactly one side is a word character. -/
def wb (p n : Option Char) : Bool :=
  optW p != optW n

/-- Case-insensitive literal match of a nonempty alternative `w` against the
front of the text.  On success returns the last text character consumed and
the remaining text.  (Matching a literal compiled with `re.IGNORECASE`.) -/
def ciMatch : List Char → List Char → Option (Char × List Char)
  | [a], c :: cs => if lowerChar c == lowerChar a then some (c, cs) else none
  | a :: b :: w, c :: cs =>
      if lowerChar c == lowerChar a then ciMatch (b :: w) cs else none
  | _, _ => none

/-- Try the alternatives of the compiled pattern `\b(a1|a2|...)\b` in order at
the current position (the caller has already checked the leading `\b`).
`some none` is a zero-width match (an empty alternative), `some (some _)` a
nonempty match that also satisfied the trailing `\b`, `none` no match. -/
def tryAlts : List (List Char) → List Char → Option (Option (Char × List Char))
  | [], _ => none
  | [] :: _, _ => some none
  | (a :: w) :: ws, cs =>
      match ciMatch (a :: w) cs with
      | some (last, rest) =>
          if wb (some last) rest.head? then some (some (last, rest))
          else tryAlts ws cs
      | none => tryAlts ws cs

/-- One left-to-right, non-overlapping scan of `pattern.sub('', text)`:
`prev` is the character just before the current position (`none` at the start
of the string), `fuel` bounds the recursion (any fuel at least the length of
the text gives the scan's result; `subScan` below supplies it). -/
def subScanF (alts : List (List Char)) : Nat → Option Char → List Char → List Char
  | 0, _, cs => cs
  | _ + 1, _, [] => []
  | fuel + 1, prev, c :: cs =>
      if wb prev (some c) then
        match tryAlts alts (c :: cs) with
        | some (some (last, rest)) => subScanF alts fuel (some last) rest
        | some none => c :: subScanF alts fuel (some c) cs
        | none => c :: subScanF alts fuel (some c) cs
      else c :: subScanF alts fuel (some c) cs

/-- Model of `pattern.sub('', text)` for the compiled pattern `\b(a1|...|an)\b` with
`re.IGNORECASE`: remove every leftmost non-overlapping whole-word occurrence
of an alternative. -/
def subScan (alts : List (List Char)) (prev : Option Char) (cs : List Char) : List Char :=
  subScanF alts cs.length prev cs

/-- Model of `FillerWordFilter._compile_pattern`: the pattern
`r'\b(' + '|'.join(escaped_words) + r')\b'` is modelled by its list of literal
alternatives.  With an empty word list the joined alternation is the empty
string, i.e. one empty alternative. -/
def compilePattern (words : List String) : List (List Char) :=
  match words with
  | [] => [[]]
  | _ => words.map (fun w => w.data)

/-- The `FillerFilterConfig` dataclass. -/
structure FillerFilterConfig where
  ignored_words : List String
  min_confidence : ℚ
  enabled : Bool
deriving Repr, DecidableEq

/-- The `FillerWordFilter` object: the configuration plus the compiled pattern. -/
structure FillerWordFilter where
  config : FillerFilterConfig
  pattern : List (List Char)
deriving Repr, DecidableEq

/-- The built-in vocabulary `FillerWordFilter.DEFAULT_FILLER_WORDS`. -/
def DEFAULT_FILLER_WORDS : List String :=
  ["uh", "um", "umm", "uhh", "hmm", "hm", "mhm", "mmm",
   "ah", "ahh", "er", "err", "like",
   "haan", "haa", "accha", "theek",
   "eh", "este", "pues",
   "euh", "ben", "alors",
   "äh", "ähm", "also"]

/-- Model of `FillerWordFilter._load_config_from_env`.  `envWords` is the value of
`AGENT_FILLER_WORDS` (`""` when unset), `minConfidence` the rational value of
`float(os.getenv("AGENT_FILLER_MIN_CONFIDENCE", "0.6"))` (float parsing of the
environment string is abstracted to its parsed value), `envEnabled` the value
of `AGENT_FILLER_FILTER_ENABLED` (`"true"` when unset). -/
def loadConfigFromEnv (envWords : String) (minConfidence : ℚ) (envEnabled : String) :
    FillerFilterConfig :=
  let ignored :=
    if envWords ≠ "" then
      (envWords.splitOn ",").filterMap
        (fun w => if stripStr w = "" then none else some (lowerStr (stripStr w)))
    else DEFAULT_FILLER_WORDS
  { ignored_words := ignored
    min_confidence := minConfidence
    enabled := lowerStr envEnabled == "true" }

/-- Model of `FillerWordFilter.__init__` with an explicit configuration: store the
configuration and compile the pattern from its word list. -/
def mkFilter (config : FillerFilterConfig) : FillerWordFilter :=
  { config := config, pattern := compilePattern config.ignored_words }

/-- Construction `FillerWordFilter()` with no configuration and no environment overrides:
the default vocabulary, threshold 0.6, enabled. -/
def defaultFilter : FillerWordFilter :=
  mkFilter (loadConfigFromEnv "" (6 / 10) "true")

/-- Model of `FillerWordFilter.update_ignored_words`: assigns `list(words)` to
`self._config.ignored_words` and recompiles the pattern. -/
def update_ignored_words (f : FillerWordFilter) (words : List String) : FillerWordFilter :=
  { config := { f.config with ignored_words := words }
    pattern := compilePattern words }

/-- A `dict.fromkeys`-style deduplication: keep the first occurrence of each
element, preserving order.  `seen` accumulates the keys already emitted. -/
def dedupFirstGo (seen : List String) : List String → List String
  | [] => []
  | x :: xs =>
      if x ∈ seen then dedupFirstGo seen xs
      else x :: dedupFirstGo (x :: seen) xs

/-- Model of `list(dict.fromkeys(l))`: remove duplicates while preserving order. -/
def dedupFirst (l : List String) : List String :=
  dedupFirstGo [] l

/-- Model of `FillerWordFilter.add_ignored_words`: normalize the new words
(`w.lower().strip()`, dropping entries with `not w.strip()`), extend the
existing list, deduplicate keeping first occurrences, recompile. -/
def add_ignored_words (f : FillerWordFilter) (words : List String) : FillerWordFilter :=
  let new_words := words.filterMap
    (fun w => if stripStr w = "" then none else some (stripStr (lowerStr w)))
  let deduped := dedupFirst (f.config.ignored_words ++ new_words)
  { config := { f.config with ignored_words := deduped }
    pattern := compilePattern deduped }

/-- The confidence test `confidence is not None and confidence < min_confidence`. -/
def lowConfidence (minConf : ℚ) : Option ℚ → Bool
  | none => false
  | some c => decide (c < minConf)

/-- Model of `FillerWordFilter.is_only_filler`. -/
def is_only_filler (f : FillerWordFilter) (text : String) (confidence : Option ℚ) : Bool :=
  if f.config.enabled = false then false
  else if text = "" ∨ stripStr text = "" then true
  else if lowConfidence f.config.min_confidence confidence then true
  else
    let normalized := (stripChars (lowerStr text).data).filter
      (fun c => isWordChar c || isWs c)
    if normalized = [] then true
    else
      let cleaned := stripChars (subScan f.pattern none normalized)
      decide (cleaned = [])

/-- Model of `FillerWordFilter.contains_meaningful_content`: the boolean negation `not self.is_only_filler(...)`. -/
def contains_meaningful_content (f : FillerWordFilter) (text : String)
    (confidence : Option ℚ) : Bool :=
  !is_only_filler f text confidence

/-- The `config` property: `return self._config` — the live configuration
object itself, with no copy taken. -/
def config_accessor (f : FillerWordFilter) : FillerFilterConfig :=
  f.config

/-- The `ignored_words` property: `return self._config.ignored_words.copy()` —
the value of the current list (a fresh copy in the source, so the filter
retains no reference to the returned list). -/
def ignored_words_accessor (f : FillerWordFilter) : List String :=
  f.config.ignored_words

/-- Because the `config` property returns `self._config` itself (not a
snapshot), an in-place mutation of the returned object, such as
`filter.config.enabled = b`, mutates the filter's own configuration.  This
definition is that experiment as a state transformer. -/
def set_enabled_via_config (f : FillerWordFilter) (b : Bool) : FillerWordFilter :=
  { f with config := { f.config with enabled := b } }

/-- Does some alternative match at the front of `cs` and also satisfy the
trailing word boundary?  (The leading boundary is checked by the caller.) -/
def altWBHere (cs : List Char) (a : List Char) : Bool :=
  match ciMatch a cs with
  | some (last, rest) => wb (some last) rest.head?
  | none => false

/-- Executable statement of "some configured term occurs, case-insensitively,
with a word boundary on both sides" for a text with previous character
`prev`: scans every position of the text. -/
def anyWBOccur (alts : List (List Char)) : Option Char → List Char → Bool
  | _, [] => false
  | prev, c :: cs =>
      (wb prev (some c) && alts.any (altWBHere (c :: cs))) || anyWBOccur alts (some c) cs

/-- Modelled from the spec: the specification's description of
`replaceIgnoredTerms` (the code's `update_ignored_words`): each entry
lowercased, empty and whitespace-only entries dropped, duplicates removed
preserving the order of first occurrences.  Used only to compare the
specified behaviour with the code's actual behaviour. -/
def replaceIgnoredTermsSpec (terms : List String) : List String :=
  dedupFirst (terms.filterMap
    (fun w => if stripStr w = "" then none else some (lowerStr w)))

/-- The invariant of claim C3 together with the lowercase property that the
reachable states in question actually maintain: no empty strings, no
duplicates, every entry fixed by lowercasing (so duplicate-freedom is also
case-insensitive duplicate-freedom). -/
def goodState (l : List String) : Prop :=
  (∀ w ∈ l, w ≠ "") ∧ l.Nodup ∧ (∀ w ∈ l, lowerStr w = w)

instance : DecidablePred goodState := fun _ => by unfold goodState; infer_instance

/-! ## Claim theorems -/

/-- C6: for every classifier state, every text and every optional confidence,
`contains_meaningful_content` is the boolean negation of `is_only_filler`. -/
theorem c6_inverse_consistency (f : FillerWordFilter) (text : String)
    (confidence : Option ℚ) :
    contains_meaningful_content f text confidence = !is_only_filler f text confidence :=
  rfl

/-- C4: when the filter is enabled, an empty or whitespace-only text is
classified as filler for every optional confidence; when the filter is
disabled, `is_only_filler` returns `false` for every text and confidence. -/
theorem c4_empty_text_and_disabled (f : FillerWordFilter) (text : String)
    (confidence : Option ℚ) :
    (f.config.enabled = true → stripStr text = "" →
      is_only_filler f text confidence = true) ∧
    (f.config.enabled = false → is_only_filler f text confidence = false) := by
  constructor
  · intro h1 h2
    simp [is_only_filler, h1, h2]
  · intro h1
    simp [is_only_filler, h1]

/-- C4 witness: whitespace-only text with an enabled default filter is filler
even with a high confidence; a disabled filter reports meaningful even for
the empty text (instantiating both parts of C4). -/
theorem c4_empty_text_and_disabled_witness :
    is_only_filler defaultFilter "   " (some (9 / 10)) = true ∧
    is_only_filler (mkFilter ⟨[], 6 / 10, false⟩) "" none = false :=
  ⟨(c4_empty_text_and_disabled defaultFilter "   " (some (9 / 10))).1 (by decide) (by decide),
   (c4_empty_text_and_disabled (mkFilter ⟨[], 6 / 10, false⟩) "" none).2 rfl⟩

/-- C5: with the filter enabled, any provided confidence strictly below
`min_confidence` forces the filler classification, whatever the text. -/
theorem c5_low_confidence_forces_filler (f : FillerWordFilter) (text : String) (c : ℚ)
    (h1 : f.config.enabled = true) (h2 : c < f.config.min_confidence) :
    is_only_filler f text (some c) = true := by
  by_cases hw : text = "" ∨ stripStr text = ""
  · simp [is_only_filler, h1, hw]
  · simp [is_only_filler, h1, hw, lowConfidence, h2]

/-- C5 witness: `is_only_filler("tell me a joke", confidence=0.1)` with the
default threshold 0.6 is `true`. -/
theorem c5_low_confidence_forces_filler_witness :
    is_only_filler defaultFilter "tell me a joke" (some (1 / 10)) = true :=
  c5_low_confidence_forces_filler defaultFilter "tell me a joke" (1 / 10)
    (by decide) (show (1 : ℚ) / 10 < 6 / 10 by norm_num)

/-- C10: a confidence exactly equal to `min_confidence` does not trigger the
low-confidence discard (the comparison is strict), so for an enabled filter
and a non-whitespace text the classification equals the one with no
confidence supplied: it depends only on the text. -/
theorem c10_threshold_exclusive (f : FillerWordFilter) (text : String)
    (h1 : f.config.enabled = true) (h2 : stripStr text ≠ "") :
    is_only_filler f text (some f.config.min_confidence) =
      is_only_filler f text none := by
  have ht : ¬(text = "" ∨ stripStr text = "") := by
    rintro (rfl | h)
    · exact h2 rfl
    · exact h2 h
  simp [is_only_filler, h1, ht, lowConfidence, lt_irrefl]

/-- C10 witness: instantiated at the default filter and a meaningful text. -/
theorem c10_threshold_exclusive_witness :
    is_only_filler defaultFilter "tell me a joke"
        (some defaultFilter.config.min_confidence) =
      is_only_filler defaultFilter "tell me a joke" none :=
  c10_threshold_exclusive defaultFilter "tell me a joke" (by decide) (by decide)

/-- C9 counterexample: the `config` accessor returns the live configuration
object, not a read-only snapshot: assigning `enabled = False` through the
object it returns changes the classifier's behaviour (the empty text flips
from filler to meaningful). -/
theorem c9_accessor_counterexample :
    is_only_filler defaultFilter "" none = true ∧
    is_only_filler (set_enabled_via_config defaultFilter false) "" none = false := by
  exact ⟨by decide, by decide⟩

/-- C9 amended: the `ignored_words` accessor does return a defensive copy
(its value equals the internal list and the filter keeps no reference to the
returned copy), but the `config` accessor returns the configuration object
itself, so mutating it does alter classifier state. -/
theorem c9_accessors_amended (f : FillerWordFilter) (h : f.config.enabled = true) :
    ignored_words_accessor f = f.config.ignored_words ∧
    config_accessor f = f.config ∧
    is_only_filler f "" none = true ∧
    is_only_filler (set_enabled_via_config f false) "" none = false := by
  refine ⟨rfl, rfl, ?_, ?_⟩
  · simp [is_only_filler, h]
  · simp [is_only_filler, set_enabled_via_config]

/-- C9 witness for the amended statement, at the default filter. -/
theorem c9_accessors_amended_witness :
    ignored_words_accessor defaultFilter = defaultFilter.config.ignored_words ∧
    config_accessor defaultFilter = defaultFilter.config ∧
    is_only_filler defaultFilter "" none = true ∧
    is_only_filler (set_enabled_via_config defaultFilter false) "" none = false :=
  c9_accessors_amended defaultFilter (by decide)

/-- C2 counterexample: `update_ignored_words` stores the given sequence
verbatim — `["UM", "um", ""]` is kept with its capitalized entry, its
case-insensitive duplicate and its empty entry — while the claimed
normalization would produce `["um"]`. -/
theorem c2_replace_counterexample :
    (update_ignored_words defaultFilter ["UM", "um", ""]).config.ignored_words =
      ["UM", "um", ""] ∧
    replaceIgnoredTermsSpec ["UM", "um", ""] = ["um"] ∧
    (["UM", "um", ""] : List String) ≠ ["um"] :=
  ⟨rfl, by decide, by decide⟩

/-- C2 amended: `update_ignored_words` replaces the entire term list with
exactly `list(terms)` — no lowercasing, no dropping of empty entries, no
deduplication — and rebuilds the matcher from it; the rest of the
configuration is untouched (full replacement, no merge). -/
theorem c2_update_replaces_verbatim (f : FillerWordFilter) (terms : List String) :
    (update_ignored_words f terms).config.ignored_words = terms ∧
    (update_ignored_words f terms).pattern = compilePattern terms ∧
    (update_ignored_words f terms).config.min_confidence = f.config.min_confidence ∧
    (update_ignored_words f terms).config.enabled = f.config.enabled :=
  ⟨rfl, rfl, rfl, rfl⟩

/-! ## Helper lemmas: case folding, stripping, deduplication -/

theorem toNat_ofNat_valid {n : Nat} (h : n < 55296) : (Char.ofNat n).toNat = n := by
  rw [Char.ofNat, dif_pos (Or.inl h)]
  rfl

theorem toNat_lowerChar (c : Char) :
    (lowerChar c).toNat =
      if 65 ≤ c.toNat ∧ c.toNat ≤ 90 then c.toNat + 32 else c.toNat := by
  unfold lowerChar
  by_cases h : 65 ≤ c.toNat ∧ c.toNat ≤ 90
  · rw [if_pos (by simp only [Bool.and_eq_true, decide_eq_true_eq]; exact h), if_pos h,
      toNat_ofNat_valid (by omega)]
  · rw [if_neg (by simpa using h), if_neg h]

theorem lowerChar_eq_self {c : Char} (h : ¬(65 ≤ c.toNat ∧ c.toNat ≤ 90)) :
    lowerChar c = c := by
  unfold lowerChar
  rw [if_neg (by simpa using h)]

theorem lowerChar_idem (c : Char) : lowerChar (lowerChar c) = lowerChar c := by
  have h1 := toNat_lowerChar c
  by_cases h : 65 ≤ c.toNat ∧ c.toNat ≤ 90
  · rw [if_pos h] at h1
    exact lowerChar_eq_self (by omega)
  · rw [if_neg h] at h1
    exact lowerChar_eq_self (by omega)

theorem isWs_eq_false_of_bounds {c : Char} (h1 : 33 ≤ c.toNat) : isWs c = false := by
  simp only [isWs, Char.isWhitespace, Bool.or_eq_false_iff, decide_eq_false_iff_not]
  refine ⟨⟨⟨fun hc => ?_, fun hc => ?_⟩, fun hc => ?_⟩, fun hc => ?_⟩ <;>
    (subst hc; exact absurd h1 (by decide))

theorem isWs_lowerChar (c : Char) : isWs (lowerChar c) = isWs c := by
  have h1 := toNat_lowerChar c
  by_cases h : 65 ≤ c.toNat ∧ c.toNat ≤ 90
  · rw [if_pos h] at h1
    rw [isWs_eq_false_of_bounds (by omega), isWs_eq_false_of_bounds (c := c) (by omega)]
  · rw [lowerChar_eq_self h]

theorem stripChars_eq_nil_iff (cs : List Char) :
    stripChars cs = [] ↔ ∀ c ∈ cs, isWs c = true := by
  unfold stripChars
  rw [List.reverse_eq_nil_iff, List.dropWhile_eq_nil_iff]
  constructor
  · intro h c hc
    rcases List.mem_append.mp
        ((List.takeWhile_append_dropWhile (p := isWs) (l := cs)) ▸ hc) with h1 | h1
    · exact List.mem_takeWhile_imp h1
    · exact h c (List.mem_reverse.mpr h1)
  · intro h c hc
    exact h c ((List.dropWhile_sublist isWs).subset (List.mem_reverse.mp hc))

theorem mem_stripChars {c : Char} {cs : List Char} (h : c ∈ stripChars cs) : c ∈ cs := by
  unfold stripChars at h
  have h1 := (List.dropWhile_sublist isWs).subset (List.mem_reverse.mp h)
  exact (List.dropWhile_sublist isWs).subset (List.mem_reverse.mp h1)

theorem mem_dedupFirstGo (x : String) : ∀ (l seen : List String),
    x ∈ dedupFirstGo seen l ↔ x ∈ l ∧ x ∉ seen := by
  intro l
  induction l with
  | nil => intro seen; simp [dedupFirstGo]
  | cons a l ih =>
    intro seen
    by_cases ha : a ∈ seen
    · rw [dedupFirstGo, if_pos ha, ih]
      constructor
      · rintro ⟨h1, h2⟩
        exact ⟨List.mem_cons_of_mem _ h1, h2⟩
      · rintro ⟨h1, h2⟩
        rcases List.mem_cons.mp h1 with rfl | h1
        · exact absurd ha h2
        · exact ⟨h1, h2⟩
    · rw [dedupFirstGo, if_neg ha]
      constructor
      · intro hx
        rcases List.mem_cons.mp hx with rfl | hx
        · exact ⟨List.mem_cons_self _ _, ha⟩
        · obtain ⟨h1, h2⟩ := (ih (a :: seen)).mp hx
          exact ⟨List.mem_cons_of_mem _ h1,
            fun hs => h2 (List.mem_cons_of_mem _ hs)⟩
      · rintro ⟨h1, h2⟩
        rcases List.mem_cons.mp h1 with rfl | h1
        · exact List.mem_cons_self _ _
        · by_cases hxa : x = a
          · subst hxa; exact List.mem_cons_self _ _
          · exact List.mem_cons_of_mem _ ((ih (a :: seen)).mpr
              ⟨h1, fun hs => (List.mem_cons.mp hs).elim hxa h2⟩)

theorem nodup_dedupFirstGo : ∀ (l seen : List String), (dedupFirstGo seen l).Nodup := by
  intro l
  induction l with
  | nil => intro seen; simp [dedupFirstGo]
  | cons a l ih =>
    intro seen
    by_cases ha : a ∈ seen
    · rw [dedupFirstGo, if_pos ha]; exact ih seen
    · rw [dedupFirstGo, if_neg ha]
      refine List.nodup_cons.mpr ⟨fun hmem => ?_, ih _⟩
      exact ((mem_dedupFirstGo a l (a :: seen)).mp hmem).2 (List.mem_cons_self a _)

theorem dedupFirstGo_eq_nil : ∀ (xs seen : List String),
    (∀ x ∈ xs, x ∈ seen) → dedupFirstGo seen xs = [] := by
  intro xs
  induction xs with
  | nil => intro seen _; rfl
  | cons a xs ih =>
    intro seen h
    rw [dedupFirstGo, if_pos (h a (List.mem_cons_self a _))]
    exact ih seen (fun x hx => h x (List.mem_cons_of_mem _ hx))

theorem dedupFirstGo_append_mem : ∀ (l xs seen : List String),
    (∀ x ∈ xs, x ∈ seen ∨ x ∈ l) →
    dedupFirstGo seen (l ++ xs) = dedupFirstGo seen l := by
  intro l
  induction l with
  | nil =>
    intro xs seen h
    rw [List.nil_append, dedupFirstGo]
    exact dedupFirstGo_eq_nil xs seen (fun x hx => (h x hx).elim id (by simp))
  | cons a l ih =>
    intro xs seen h
    by_cases ha : a ∈ seen
    · rw [List.cons_append, dedupFirstGo, if_pos ha, dedupFirstGo, if_pos ha]
      refine ih xs seen (fun x hx => ?_)
      rcases h x hx with h1 | h1
      · exact Or.inl h1
      · rcases List.mem_cons.mp h1 with rfl | h1
        · exact Or.inl ha
        · exact Or.inr h1
    · rw [List.cons_append, dedupFirstGo, if_neg ha, dedupFirstGo, if_neg ha]
      refine congrArg (a :: ·) (ih xs (a :: seen) (fun x hx => ?_))
      rcases h x hx with h1 | h1
      · exact Or.inl (List.mem_cons_of_mem _ h1)
      · rcases List.mem_cons.mp h1 with rfl | h1
        · exact Or.inl (List.mem_cons_self _ _)
        · exact Or.inr h1

theorem dedupFirstGo_eq_self : ∀ (m seen : List String), m.Nodup →
    (∀ x ∈ m, x ∉ seen) → dedupFirstGo seen m = m := by
  intro m
  induction m with
  | nil => intro seen _ _; rfl
  | cons a m ih =>
    intro seen hnd hs
    rw [dedupFirstGo, if_neg (hs a (List.mem_cons_self a _))]
    refine congrArg (a :: ·) (ih (a :: seen) (List.nodup_cons.mp hnd).2 ?_)
    intro x hx hmem
    rcases List.mem_cons.mp hmem with rfl | hmem
    · exact (List.nodup_cons.mp hnd).1 hx
    · exact hs x (List.mem_cons_of_mem _ hx) hmem

theorem dedupFirst_nodup (l : List String) : (dedupFirst l).Nodup :=
  nodup_dedupFirstGo l []

theorem mem_dedupFirst {x : String} {l : List String} : x ∈ dedupFirst l ↔ x ∈ l := by
  unfold dedupFirst
  rw [mem_dedupFirstGo]
  simp

theorem dedupFirst_idem_append (l xs : List String) (h : ∀ x ∈ xs, x ∈ l) :
    dedupFirst (dedupFirst l ++ xs) = dedupFirst l := by
  have h2 : dedupFirstGo [] (dedupFirst l ++ xs) = dedupFirstGo [] (dedupFirst l) :=
    dedupFirstGo_append_mem (dedupFirst l) xs []
      (fun x hx => Or.inr (mem_dedupFirst.mpr (h x hx)))
  unfold dedupFirst at h2 ⊢
  rw [h2]
  exact dedupFirstGo_eq_self _ [] (dedupFirst_nodup l) (by simp)

theorem map_lowerChar_of_mem {x : List Char} (h : ∀ c ∈ x, lowerChar c = c) :
    x.map lowerChar = x := by
  rw [List.map_congr_left h]
  simp

theorem lower_fixed_new (w : String) :
    lowerStr (stripStr (lowerStr w)) = stripStr (lowerStr w) := by
  show (⟨(stripChars (w.data.map lowerChar)).map lowerChar⟩ : String) = _
  rw [map_lowerChar_of_mem]
  · rfl
  · intro c hc
    obtain ⟨c', -, rfl⟩ := List.mem_map.mp (mem_stripChars hc)
    exact lowerChar_idem c'

theorem stripStr_lowerStr_ne_empty {w : String} (h : stripStr w ≠ "") :
    stripStr (lowerStr w) ≠ "" := by
  intro hc
  apply h
  have h1 : stripChars (w.data.map lowerChar) = [] := congrArg String.data hc
  have h2 : ∀ c ∈ w.data, isWs c = true := by
    intro c hcmem
    have h3 := (stripChars_eq_nil_iff _).mp h1 (lowerChar c)
      (List.mem_map_of_mem lowerChar hcmem)
    rw [isWs_lowerChar] at h3
    exact h3
  show (⟨stripChars w.data⟩ : String) = ""
  rw [(stripChars_eq_nil_iff w.data).mpr h2]

theorem add_preserves_goodState (f : FillerWordFilter) (ws : List String)
    (h : goodState f.config.ignored_words) :
    goodState (add_ignored_words f ws).config.ignored_words := by
  obtain ⟨h1, h2, h3⟩ := h
  simp only [add_ignored_words]
  refine ⟨?_, dedupFirst_nodup _, ?_⟩
  · intro w hw
    rcases List.mem_append.mp (mem_dedupFirst.mp hw) with hl | hn
    · exact h1 w hl
    · obtain ⟨w', hw', hg⟩ := List.mem_filterMap.mp hn
      by_cases hs : stripStr w' = ""
      · rw [if_pos hs] at hg; cases hg
      · rw [if_neg hs] at hg
        injection hg with hg
        rw [← hg]
        exact stripStr_lowerStr_ne_empty hs
  · intro w hw
    rcases List.mem_append.mp (mem_dedupFirst.mp hw) with hl | hn
    · exact h3 w hl
    · obtain ⟨w', hw', hg⟩ := List.mem_filterMap.mp hn
      by_cases hs : stripStr w' = ""
      · rw [if_pos hs] at hg; cases hg
      · rw [if_neg hs] at hg
        injection hg with hg
        rw [← hg]
        exact lower_fixed_new w'

theorem goodState_ci_nodup {l : List String} (h : goodState l) :
    (l.map lowerStr).Nodup := by
  rw [List.map_congr_left h.2.2]
  simpa using h.2.1

/-- C3 counterexample: the claimed invariant is violated in reachable states:
`update_ignored_words` (a public operation) stores empty strings and
case-insensitive duplicates verbatim. -/
theorem c3_invariant_counterexample :
    "" ∈ (update_ignored_words defaultFilter [""]).config.ignored_words ∧
    ¬ ((update_ignored_words defaultFilter ["um", "um"]).config.ignored_words.map
        lowerStr).Nodup := by
  constructor <;> decide

/-- C3 amended: the invariant (no empty strings, no case-insensitive
duplicates) does hold for the environment-default construction with the
override unset, and it is preserved by `add_ignored_words` (stated via
`goodState`, which additionally records that the entries are lowercase);
but `update_ignored_words` and construction from an arbitrary caller
configuration copy the caller's list verbatim and can violate it, and an
environment override list is not deduplicated. -/
theorem c3_invariant_default_and_add (q : ℚ) (e : String) (f : FillerWordFilter)
    (ws : List String) (h : goodState f.config.ignored_words) :
    goodState (loadConfigFromEnv "" q e).ignored_words ∧
    goodState (add_ignored_words f ws).config.ignored_words ∧
    "" ∉ (add_ignored_words f ws).config.ignored_words ∧
    ((add_ignored_words f ws).config.ignored_words.map lowerStr).Nodup := by
  have hadd := add_preserves_goodState f ws h
  have hdef : (loadConfigFromEnv "" q e).ignored_words = DEFAULT_FILLER_WORDS := rfl
  refine ⟨by rw [hdef]; decide, hadd, fun hm => hadd.1 "" hm rfl, goodState_ci_nodup hadd⟩

/-- C3 witness for the amended statement: the default filter state is good,
and adding a mixed-case, whitespace and empty batch keeps the invariant. -/
theorem c3_invariant_default_and_add_witness :
    goodState (loadConfigFromEnv "" (6 / 10) "true").ignored_words ∧
    goodState (add_ignored_words defaultFilter ["Okay", " ", ""]).config.ignored_words ∧
    "" ∉ (add_ignored_words defaultFilter ["Okay", " ", ""]).config.ignored_words ∧
    ((add_ignored_words defaultFilter ["Okay", " ", ""]).config.ignored_words.map
      lowerStr).Nodup :=
  c3_invariant_default_and_add (6 / 10) "true" defaultFilter ["Okay", " ", ""] (by decide)

/-- C8: a second identical `add_ignored_words` call leaves the term list
unchanged; in particular adding `["okay"]` twice yields a list in which
"okay" occurs exactly once.  (Proved for every classifier state, so in
particular for states whose list is already duplicate-free.) -/
theorem c8_add_idempotent (f : FillerWordFilter) :
    ((add_ignored_words (add_ignored_words f ["okay"]) ["okay"]).config.ignored_words.count
        "okay" = 1) ∧
    ∀ ws : List String,
      (add_ignored_words (add_ignored_words f ws) ws).config.ignored_words =
        (add_ignored_words f ws).config.ignored_words := by
  have hgen : ∀ ws : List String,
      (add_ignored_words (add_ignored_words f ws) ws).config.ignored_words =
        (add_ignored_words f ws).config.ignored_words := by
    intro ws
    simp only [add_ignored_words]
    exact dedupFirst_idem_append _ _ (fun x hx => List.mem_append_right _ hx)
  refine ⟨?_, hgen⟩
  rw [hgen ["okay"]]
  simp only [add_ignored_words]
  have hnorm : (["okay"] : List String).filterMap
      (fun w => if stripStr w = "" then none else some (stripStr (lowerStr w))) =
      ["okay"] := by decide
  rw [hnorm]
  exact List.count_eq_one_of_mem (dedupFirst_nodup _)
    (mem_dedupFirst.mpr (List.mem_append_right _ (List.mem_singleton_self "okay")))

/-! ## Helper lemmas: the substitution scan -/

theorem subScanF_empty_alt (cs : List Char) : ∀ (prev : Option Char) (fuel : Nat),
    subScanF [[]] fuel prev cs = cs := by
  induction cs with
  | nil => intro prev fuel; cases fuel <;> rfl
  | cons c cs ih =>
    intro prev fuel
    cases fuel with
    | zero => rfl
    | succ k =>
      by_cases h : wb prev (some c) = true
      · simp [subScanF, h, tryAlts, ih]
      · simp [subScanF, h, ih]

theorem tryAlts_eq_none (alts : List (List Char)) (s : List Char)
    (hne : [] ∉ alts) (h : ∀ a ∈ alts, altWBHere s a = false) :
    tryAlts alts s = none := by
  induction alts with
  | nil => rfl
  | cons a ws ih =>
    have hrec : tryAlts ws s = none :=
      ih (fun hm => hne (List.mem_cons_of_mem _ hm))
        (fun x hx => h x (List.mem_cons_of_mem _ hx))
    cases a with
    | nil => exact absurd (List.mem_cons_self _ _) hne
    | cons b w =>
      have hb := h (b :: w) (List.mem_cons_self _ _)
      cases hm : ciMatch (b :: w) s with
      | none =>
        simp only [tryAlts, hm]
        exact hrec
      | some p =>
        obtain ⟨last, rest⟩ := p
        simp only [altWBHere, hm] at hb
        simp [tryAlts, hm, hb, hrec]

theorem subScanF_no_occur (alts : List (List Char)) (hne : [] ∉ alts) :
    ∀ (cs : List Char) (prev : Option Char) (fuel : Nat), cs.length ≤ fuel →
      anyWBOccur alts prev cs = false → subScanF alts fuel prev cs = cs := by
  intro cs
  induction cs with
  | nil => intro prev fuel _ _; cases fuel <;> rfl
  | cons c cs ih =>
    intro prev fuel hf h
    cases fuel with
    | zero => simp at hf
    | succ k =>
      have hf' : cs.length ≤ k := by
        simpa using hf
      rw [anyWBOccur, Bool.or_eq_false_iff, Bool.and_eq_false_iff] at h
      obtain ⟨h1, h2⟩ := h
      by_cases hw : wb prev (some c) = true
      · have hany : alts.any (altWBHere (c :: cs)) = false := by
          rcases h1 with h1 | h1
          · rw [hw] at h1; cases h1
          · exact h1
        have hnone := tryAlts_eq_none alts (c :: cs) hne (by
          intro a ha
          have := List.any_eq_false.mp hany a ha
          simpa using this)
        rw [subScanF, if_pos hw, hnone]
        exact congrArg (c :: ·) (ih (some c) k hf' h2)
      · rw [subScanF, if_neg hw]
        exact congrArg (c :: ·) (ih (some c) k hf' h2)

/-! ## Remaining claim theorems -/

/-- C7: after replacing the term list with the empty sequence, an enabled
filter classifies "umm" as meaningful, and in general the pattern compiled
from an empty vocabulary (a single empty alternative, matching only the
empty string) strips nothing from any text. -/
theorem c7_empty_vocabulary (f : FillerWordFilter) (h : f.config.enabled = true) :
    is_only_filler (update_ignored_words f []) "umm" none = false ∧
    ∀ (prev : Option Char) (cs : List Char), subScan (compilePattern []) prev cs = cs := by
  constructor
  · have hp : update_ignored_words f [] =
        ⟨⟨[], f.config.min_confidence, true⟩, [[]]⟩ := by rw [← h]; rfl
    rw [hp]
    rfl
  · intro prev cs
    exact subScanF_empty_alt cs prev cs.length

/-- C7 witness, at the default filter. -/
theorem c7_empty_vocabulary_witness :
    is_only_filler (update_ignored_words defaultFilter []) "umm" none = false ∧
    ∀ (prev : Option Char) (cs : List Char), subScan (compilePattern []) prev cs = cs :=
  c7_empty_vocabulary defaultFilter (by decide)

/-- C1: with the default vocabulary, "hmmph" is not filler (the terms "hm"
and "hmm" occur in it only as proper substrings of a longer word), and in
general the removal step strips only whole-word, case-insensitive
occurrences: whenever no configured term occurs anywhere in the text with a
word boundary on both sides (`anyWBOccur` scans every position for such an
occurrence), the substitution leaves the text unchanged. -/
theorem c1_whole_word_matching (alts : List (List Char)) (cs : List Char)
    (hne : [] ∉ alts) (hno : anyWBOccur alts none cs = false) :
    is_only_filler defaultFilter "hmmph" none = false ∧
    subScan alts none cs = cs :=
  ⟨by decide, subScanF_no_occur alts hne cs none cs.length le_rfl hno⟩

/-- C1 witness: the default compiled pattern on the text "hmmph". -/
theorem c1_whole_word_matching_witness :
    is_only_filler defaultFilter "hmmph" none = false ∧
    subScan defaultFilter.pattern none "hmmph".data = "hmmph".data :=
  c1_whole_word_matching defaultFilter.pattern "hmmph".data (by decide) (by decide)
